import Mathlib

/-!
Shallow embedding of `src/ec2_enumerate_tag.py` (the pattern parser, the
membership test and the fresh-name allocator).  Strings are modelled by their
character lists; Python exceptions (`PatternError` raised by `parse_pattern`,
the `AttributeError` raised by `m.group(1)` when `re.match` returns `None`)
are modelled by `Option`, `none` meaning the call raises.

Regex fidelity.  The parser's regex is
  `(?P<hostname>[a-zA-Z0-9_-]*)\[(?P<range_start>\d+):(?P<range_end>\d+)\]`
applied with `re.match`, i.e. anchored at the start of the string only.
Since `[` is not in the hostname character class, the greedy `[a-zA-Z0-9_-]*`
with backtracking matches exactly the maximal run of class characters, which
must then be followed by a literal `[`; likewise each greedy `\d+` matches
the maximal digit run, which must be followed by `:` (resp. `]`): shortening
any of these runs by backtracking puts a class (resp. digit) character where
the literal is required, so maximal munch is complete.  Anything may follow
the closing `]`.  `check_pattern` and `fresh_names` build the regex
`hostname + range_pattern(range_start)`, i.e. the literal hostname followed
by a parenthesised run of exactly `len(range_start)` `\d` atoms, again with
`re.match`: it matches iff the subject starts with the hostname followed by
that many decimal digits, and the group is that digit run.  This is a
Python 2 module (`print i`), so `\d` is ASCII `[0-9]`.
-/

set_option linter.unusedVariables false

namespace Ec2EnumerateTag

/-- The character class `[a-zA-Z0-9_-]` of the hostname group. -/
def isClassChar (c : Char) : Bool :=
  c.isAlpha || c.isDigit || c == '_' || c == '-'

/-- The `groupdict()` returned by `parse_pattern`: the three named groups,
each a string (list of characters). -/
structure PatternDict where
  hostname : List Char
  range_start : List Char
  range_end : List Char
deriving DecidableEq, Repr

/-- `parse_pattern(raw_pattern)`: match the pattern regex at the start of
`raw` (maximal munch, see the header comment) and return the group dict,
or `none` for the raised `PatternError`. -/
def parse_pattern (raw : List Char) : Option PatternDict :=
  match raw.dropWhile isClassChar with
  | '[' :: r2 =>
    if r2.takeWhile Char.isDigit = [] then none
    else
      match r2.dropWhile Char.isDigit with
      | ':' :: r4 =>
        if r4.takeWhile Char.isDigit = [] then none
        else
          match r4.dropWhile Char.isDigit with
          | ']' :: _ =>
            some ⟨raw.takeWhile isClassChar, r2.takeWhile Char.isDigit,
              r4.takeWhile Char.isDigit⟩
          | _ => none
      | _ => none
  | _ => none

/-- `int(s)` on a string of ASCII decimal digits. -/
def natOfDigits (ds : List Char) : Nat :=
  ds.foldl (fun a c => 10 * a + (c.toNat - 48)) 0

/-- Fuel-driven digit rendering; the fuel only ensures structural recursion
and is irrelevant whenever it exceeds the argument (`natDigitsAux_irrel`). -/
def natDigitsAux : Nat → Nat → List Char
  | 0, n => [Char.ofNat (48 + n)]
  | fuel + 1, n =>
    if n < 10 then [Char.ofNat (48 + n)]
    else natDigitsAux fuel (n / 10) ++ [Char.ofNat (48 + n % 10)]

/-- `str(n)` for a non-negative integer: most-significant-first decimal
digits, `"0"` for `0`. -/
def natDigits (n : Nat) : List Char :=
  natDigitsAux n n

/-- The suffix loop of `fresh_names`: `str(n)` left-padded with `'0'` up to
length `w` (no truncation when `str(n)` is already at least that long). -/
def padDigits (n w : Nat) : List Char :=
  List.replicate (w - (natDigits n).length) '0' ++ natDigits n

/-- `re.match(hostname + range_pattern(range_start_str), tag)` followed by
`m.group(1)`: `some ds` where `ds` is the captured digit run when `tag`
starts with the literal `host` followed by exactly `w` decimal digits
(anything may follow), `none` when the regex does not match. -/
def matchIdGroup (host : List Char) (w : Nat) (tag : List Char) :
    Option (List Char) :=
  if tag.take host.length = host then
    if ((tag.drop host.length).take w).length = w ∧
        ((tag.drop host.length).take w).all Char.isDigit = true then
      some ((tag.drop host.length).take w)
    else none
  else none

/-- `check_pattern(pattern, tag, taken)`.  Returns `none` when
`parse_pattern` raises, otherwise `some` of the boolean
`range_start <= current_id <= range_end` (and `some false` when the regex
does not match `tag`).  The `taken` argument is accepted and never read,
as in the source. -/
def check_pattern {α : Type} (pat tag : String) (taken : α) : Option Bool :=
  match parse_pattern pat.data with
  | none => none
  | some pd =>
    match matchIdGroup pd.hostname pd.range_start.length tag.data with
    | some ds =>
      some (decide (natOfDigits pd.range_start ≤ natOfDigits ds ∧
        natOfDigits ds ≤ natOfDigits pd.range_end))
    | none => some false

/-- Python 2 string comparison: lexicographic on code points. -/
def lexLt : List Char → List Char → Bool
  | [], [] => false
  | [], _ :: _ => true
  | _ :: _, [] => false
  | a :: as, b :: bs =>
    if a.toNat < b.toNat then true
    else if b.toNat < a.toNat then false
    else lexLt as bs

/-- Python's `max` over a non-empty collection of strings: keep the current
maximum, replacing it whenever a later element compares strictly greater. -/
def pyMax (t : String) (ts : List String) : String :=
  ts.foldl (fun acc x => if lexLt acc.data x.data then x else acc) t

/-- The generation loop of `fresh_names`: for `i` in `0 .. n-1`, emit
`hostname + str(start + i)` zero-padded to width `w`. -/
def genNames (host : List Char) (w start n : Nat) : List String :=
  (List.range n).map fun i => String.mk (host ++ padDigits (start + i) w)

/-- `fresh_names(pattern, taken, no_requested)`.  `none` models a raised
exception: `PatternError` from `parse_pattern`, or the `AttributeError`
from `m.group(1)` when `max(taken)` does not match the hostname-plus-digits
regex.  Note the source performs no capacity check against `range_end`. -/
def fresh_names (pat : String) (taken : List String) (no_requested : Nat) :
    Option (List String) :=
  match parse_pattern pat.data with
  | none => none
  | some pd =>
    let w := pd.range_start.length
    match taken with
    | [] => some (genNames pd.hostname w (natOfDigits pd.range_start) no_requested)
    | t :: ts =>
      match matchIdGroup pd.hostname w (pyMax t ts).data with
      | none => none
      | some ds => some (genNames pd.hostname w (natOfDigits ds + 1) no_requested)

/-- The numeric id carried by a name: the value of what follows the
hostname.  For a name of the form `hostname ++ digits` this is the id the
membership test extracts. -/
def idOf (pd : PatternDict) (s : String) : Nat :=
  natOfDigits (s.data.drop pd.hostname.length)

/-- `max(usedIds)` of the spec, over the ids of a non-empty taken list. -/
def maxTakenId (pd : PatternDict) (t : String) (ts : List String) : Nat :=
  (ts.map (idOf pd)).foldl Nat.max (idOf pd t)

/-- The start id of the spec's allocation algorithm:
`max(usedIds) + 1` when the taken collection is non-empty, the lower bound
otherwise. -/
def startOf (pd : PatternDict) (taken : List String) : Nat :=
  match taken with
  | [] => natOfDigits pd.range_start
  | t :: ts => maxTakenId pd t ts + 1

/-- A taken name that conforms to the pattern in the sense of the spec:
the hostname followed by exactly `width` decimal digits whose value lies
within the inclusive bounds. -/
def Conforms (pd : PatternDict) (s : String) : Prop :=
  ∃ ds, s.data = pd.hostname ++ ds ∧ ds.length = pd.range_start.length ∧
    ds.all Char.isDigit = true ∧
    natOfDigits pd.range_start ≤ natOfDigits ds ∧
    natOfDigits ds ≤ natOfDigits pd.range_end

/-- Modelled from the spec (§4.2, claim C2's right-hand side): a candidate
matches when it EQUALS the hostname followed by the zero-padded decimal
rendering of some id `k` with `lower <= k <= upper` — full-string equality,
no trailing characters. -/
def matchesSpec (pd : PatternDict) (tag : String) : Bool :=
  (tag.data.take pd.hostname.length == pd.hostname) &&
  decide (tag.data.drop pd.hostname.length ≠ []) &&
  (tag.data.drop pd.hostname.length).all Char.isDigit &&
  (padDigits (natOfDigits (tag.data.drop pd.hostname.length))
      pd.range_start.length == tag.data.drop pd.hostname.length) &&
  decide (natOfDigits pd.range_start ≤
    natOfDigits (tag.data.drop pd.hostname.length)) &&
  decide (natOfDigits (tag.data.drop pd.hostname.length) ≤
    natOfDigits pd.range_end)

/-- Modelled from the spec (§4.1, claim C4's grammar): the whole string is
`<prefix>[<digits>:<digits>]` with nothing before, between or after —
full-string match of the grammar. -/
def fullGrammar (raw : List Char) : Bool :=
  match raw.dropWhile isClassChar with
  | '[' :: r2 =>
    if r2.takeWhile Char.isDigit = [] then false
    else
      match r2.dropWhile Char.isDigit with
      | ':' :: r4 =>
        if r4.takeWhile Char.isDigit = [] then false
        else
          match r4.dropWhile Char.isDigit with
          | [']'] => true
          | _ => false
      | _ => false
  | _ => false

/-- The shape accepted by the parse regex (anchored at the start of the
string, anything after the closing bracket): some decomposition into a
class-character prefix, a bracketed pair of non-empty digit runs, and an
arbitrary tail. -/
def MatchesAnchoredGrammar (raw : List Char) : Prop :=
  ∃ h d1 d2 rest, raw = h ++ '[' :: (d1 ++ ':' :: (d2 ++ ']' :: rest)) ∧
    h.all isClassChar = true ∧ d1 ≠ [] ∧ d1.all Char.isDigit = true ∧
    d2 ≠ [] ∧ d2.all Char.isDigit = true

/-- The shape accepted by the membership regex of `check_pattern` and
`fresh_names`: the string begins with the hostname followed by exactly `w`
decimal digits (anything may follow). -/
def StartsWithIdRun (host : List Char) (w : Nat) (tag : List Char) : Prop :=
  ∃ ds rest, tag = host ++ (ds ++ rest) ∧ ds.length = w ∧
    ds.all Char.isDigit = true

example : parse_pattern "myhost[01:99]".data =
    some ⟨"myhost".data, ['0', '1'], ['9', '9']⟩ := by decide

example : parse_pattern "myhost-01".data = none := by decide

example : parse_pattern "a[1:2]x".data = some ⟨['a'], ['1'], ['2']⟩ := by decide

example : check_pattern "web[1:9]" "web5" () = some true := by decide

example : check_pattern "web[1:9]" "web05" () = some false := by decide

example : check_pattern "web[1:9]" "web55" () = some true := by decide

example : fresh_names "host[01:05]" ["host01", "host02"] 2 =
    some ["host03", "host04"] := by decide

example : fresh_names "node[000:010]" [] 3 =
    some ["node000", "node001", "node002"] := by decide

example : fresh_names "srv[01:02]" ["srv01", "srv02"] 1 =
    some ["srv03"] := by decide

example : fresh_names "host[01:99]" ["bogus"] 3 = none := by decide

/-! ### Character facts -/

theorem char_toNat_inj {c d : Char} (h : c.toNat = d.toNat) : c = d := by
  have h2 := congrArg Char.ofNat h
  simpa using h2

theorem isDigit_toNat {c : Char} (h : c.isDigit = true) :
    48 ≤ c.toNat ∧ c.toNat ≤ 57 := by
  simp only [Char.isDigit, ge_iff_le, Bool.and_eq_true, decide_eq_true_eq] at h
  exact ⟨UInt32.le_toNat_of_le (by decide) h.1, UInt32.toNat_le_of_le (by decide) h.2⟩

theorem ofNat_shift_isDigit {m : Nat} (h : m < 10) :
    (Char.ofNat (48 + m)).isDigit = true := by
  interval_cases m <;> decide

theorem toNat_ofNat_shift {m : Nat} (h : m < 10) :
    (Char.ofNat (48 + m)).toNat = 48 + m := by
  interval_cases m <;> decide

/-! ### Digit-string value: natOfDigits -/

theorem natOfDigits_nil : natOfDigits [] = 0 := rfl

theorem natOfDigits_foldl (ds : List Char) : ∀ a : Nat,
    ds.foldl (fun a c => 10 * a + (c.toNat - 48)) a =
      a * 10 ^ ds.length + natOfDigits ds := by
  induction ds with
  | nil => intro a; simp [natOfDigits]
  | cons c ds ih =>
    intro a
    simp only [List.foldl_cons, List.length_cons]
    rw [ih]
    have h2 : natOfDigits (c :: ds) =
        (10 * 0 + (c.toNat - 48)) * 10 ^ ds.length + natOfDigits ds := by
      show List.foldl _ (10 * 0 + (c.toNat - 48)) ds = _
      rw [ih]
    rw [h2]
    ring

theorem natOfDigits_cons (c : Char) (ds : List Char) :
    natOfDigits (c :: ds) = (c.toNat - 48) * 10 ^ ds.length + natOfDigits ds := by
  show ds.foldl _ (10 * 0 + (c.toNat - 48)) = _
  rw [natOfDigits_foldl]
  ring

theorem natOfDigits_snoc (l : List Char) (c : Char) :
    natOfDigits (l ++ [c]) = 10 * natOfDigits l + (c.toNat - 48) := by
  simp [natOfDigits, List.foldl_append]

theorem natOfDigits_lt (ds : List Char) (h : ds.all Char.isDigit = true) :
    natOfDigits ds < 10 ^ ds.length := by
  induction ds with
  | nil => simp [natOfDigits]
  | cons c ds ih =>
    simp only [List.all_cons, Bool.and_eq_true] at h
    have hc := isDigit_toNat h.1
    have hds := ih h.2
    rw [natOfDigits_cons]
    have h9 : (c.toNat - 48) * 10 ^ ds.length ≤ 9 * 10 ^ ds.length :=
      Nat.mul_le_mul_right _ (by omega)
    have hpow : 0 < 10 ^ ds.length := Nat.pos_pow_of_pos _ (by norm_num)
    simp only [List.length_cons, pow_succ]
    omega

theorem natOfDigits_cons_zero (ds : List Char) :
    natOfDigits ('0' :: ds) = natOfDigits ds := by
  rw [natOfDigits_cons]
  have h : '0'.toNat = 48 := rfl
  rw [h]
  simp

theorem natOfDigits_replicate_zero (z : Nat) (ds : List Char) :
    natOfDigits (List.replicate z '0' ++ ds) = natOfDigits ds := by
  induction z with
  | zero => simp
  | succ z ih => rw [List.replicate_succ, List.cons_append, natOfDigits_cons_zero, ih]

/-! ### Decimal rendering: natDigits -/

theorem natDigitsAux_irrel : ∀ f1 f2 n : Nat, n ≤ f1 → n ≤ f2 →
    natDigitsAux f1 n = natDigitsAux f2 n := by
  intro f1
  induction f1 with
  | zero =>
    intro f2 n h1 _
    have hn : n = 0 := by omega
    subst hn
    cases f2 with
    | zero => rfl
    | succ g => simp [natDigitsAux]
  | succ f ih =>
    intro f2 n h1 h2
    cases f2 with
    | zero =>
      have hn : n = 0 := by omega
      subst hn
      simp [natDigitsAux]
    | succ g =>
      simp only [natDigitsAux]
      split
      · rfl
      · rename_i hge
        have hlt : n / 10 < n := Nat.div_lt_self (by omega) (by omega)
        rw [ih g (n / 10) (by omega) (by omega)]

theorem natDigits_eq (n : Nat) : natDigits n =
    if n < 10 then [Char.ofNat (48 + n)]
    else natDigits (n / 10) ++ [Char.ofNat (48 + n % 10)] := by
  by_cases h : n < 10
  · rw [if_pos h]
    cases n with
    | zero => rfl
    | succ m => unfold natDigits; simp [natDigitsAux, h]
  · rw [if_neg h]
    have hn : n ≠ 0 := by omega
    obtain ⟨f, hf⟩ := Nat.exists_eq_succ_of_ne_zero hn
    subst hf
    show natDigitsAux (f + 1) (f + 1) = _
    simp only [natDigitsAux, if_neg h]
    have hlt : (f + 1) / 10 < f + 1 := Nat.div_lt_self (by omega) (by omega)
    rw [natDigitsAux_irrel f ((f + 1) / 10) ((f + 1) / 10) (by omega) (by omega)]
    rfl

theorem natDigits_ne_nil (n : Nat) : natDigits n ≠ [] := by
  rw [natDigits_eq]
  split <;> simp

theorem natDigits_all_digit (n : Nat) : (natDigits n).all Char.isDigit = true := by
  induction n using Nat.strong_induction_on with
  | _ n ih =>
    rw [natDigits_eq]
    split
    · rename_i h
      simp [ofNat_shift_isDigit h]
    · rename_i h
      have hlt : n / 10 < n := Nat.div_lt_self (by omega) (by omega)
      simp [List.all_append, ih _ hlt, ofNat_shift_isDigit (Nat.mod_lt _ (by omega))]

theorem natOfDigits_natDigits (n : Nat) : natOfDigits (natDigits n) = n := by
  induction n using Nat.strong_induction_on with
  | _ n ih =>
    rw [natDigits_eq]
    split
    · rename_i h
      rw [natOfDigits_cons, toNat_ofNat_shift h]
      simp [natOfDigits_nil]
    · rename_i h
      have hlt : n / 10 < n := Nat.div_lt_self (by omega) (by omega)
      rw [natOfDigits_snoc, ih _ hlt, toNat_ofNat_shift (Nat.mod_lt _ (by omega))]
      omega

theorem natDigits_length_le : ∀ w n : Nat, 1 ≤ w → n < 10 ^ w →
    (natDigits n).length ≤ w := by
  intro w
  induction w with
  | zero => omega
  | succ w ih =>
    intro n _ h
    rw [natDigits_eq]
    split
    · simp
    · rename_i hge
      have hw1 : 1 ≤ w := by
        rcases Nat.eq_zero_or_pos w with hw0 | hw0
        · subst hw0; simp at h; omega
        · exact hw0
      have hdiv : n / 10 < 10 ^ w := by
        rw [Nat.div_lt_iff_lt_mul (by norm_num)]
        calc n < 10 ^ (w + 1) := h
        _ = 10 ^ w * 10 := by rw [pow_succ]
      have := ih (n / 10) hw1 hdiv
      simp only [List.length_append, List.length_cons, List.length_nil]
      omega

/-! ### Zero padding: padDigits -/

theorem padDigits_all_digit (n w : Nat) : (padDigits n w).all Char.isDigit = true := by
  simp only [padDigits, List.all_append, Bool.and_eq_true]
  refine ⟨?_, natDigits_all_digit n⟩
  simp only [List.all_eq_true]
  intro c hc
  rw [List.eq_of_mem_replicate hc]
  decide

theorem natOfDigits_padDigits (n w : Nat) : natOfDigits (padDigits n w) = n := by
  rw [padDigits, natOfDigits_replicate_zero, natOfDigits_natDigits]

theorem padDigits_length (n w : Nat) :
    (padDigits n w).length = max w (natDigits n).length := by
  simp only [padDigits, List.length_append, List.length_replicate]
  omega

theorem padDigits_length_of_lt {n w : Nat} (hw : 1 ≤ w) (h : n < 10 ^ w) :
    (padDigits n w).length = w := by
  rw [padDigits_length]
  have := natDigits_length_le w n hw h
  omega

theorem padDigits_ne_nil (n w : Nat) : padDigits n w ≠ [] := by
  intro h
  have hlen := congrArg List.length h
  rw [padDigits_length] at hlen
  have h1 : 0 < (natDigits n).length := List.length_pos.mpr (natDigits_ne_nil n)
  have h2 : (natDigits n).length ≤ max w (natDigits n).length := Nat.le_max_right _ _
  simp only [List.length_nil] at hlen
  omega

/-! ### Canonicity: a digit string is the padded rendering of its value -/

theorem natDigits_of_lead (c : Char) (rest : List Char) (hc : c.isDigit = true)
    (hc0 : c ≠ '0') (hrest : rest.all Char.isDigit = true) :
    natDigits (natOfDigits (c :: rest)) = c :: rest := by
  induction rest using List.reverseRecOn with
  | nil =>
    have hb := isDigit_toNat hc
    have hne : c.toNat ≠ 48 := by
      intro h48
      exact hc0 (char_toNat_inj (h48.trans (by decide : (48 : Nat) = '0'.toNat)))
    rw [natOfDigits_cons]
    simp only [List.length_nil, pow_zero, Nat.mul_one, natOfDigits_nil, Nat.add_zero]
    rw [natDigits_eq, if_pos (by omega)]
    rw [show 48 + (c.toNat - 48) = c.toNat by omega]
    simp
  | append_singleton rest0 d ih =>
    simp only [List.all_append, List.all_cons, Bool.and_eq_true] at hrest
    obtain ⟨hrest0, hd, -⟩ := hrest
    have hdb := isDigit_toNat hd
    have hcb := isDigit_toNat hc
    have hval : natOfDigits (c :: (rest0 ++ [d])) =
        10 * natOfDigits (c :: rest0) + (d.toNat - 48) := by
      rw [show c :: (rest0 ++ [d]) = (c :: rest0) ++ [d] by rfl, natOfDigits_snoc]
    have hv1 : 1 ≤ natOfDigits (c :: rest0) := by
      rw [natOfDigits_cons]
      have hne : c.toNat ≠ 48 := by
        intro h48
        exact hc0 (char_toNat_inj (h48.trans (by decide : (48 : Nat) = '0'.toNat)))
      have hpow : 0 < 10 ^ rest0.length := Nat.pos_pow_of_pos _ (by norm_num)
      have : 1 ≤ c.toNat - 48 := by omega
      calc 1 = 1 * 1 := by ring
      _ ≤ (c.toNat - 48) * 10 ^ rest0.length := Nat.mul_le_mul this hpow
      _ ≤ _ := Nat.le_add_right _ _
    rw [hval, natDigits_eq, if_neg (by omega)]
    have hdiv : (10 * natOfDigits (c :: rest0) + (d.toNat - 48)) / 10 =
        natOfDigits (c :: rest0) := by omega
    have hmod : (10 * natOfDigits (c :: rest0) + (d.toNat - 48)) % 10 =
        d.toNat - 48 := by omega
    rw [hdiv, hmod, ih hrest0]
    rw [show 48 + (d.toNat - 48) = d.toNat by omega]
    simp

theorem padDigits_val {ds : List Char} (hd : ds.all Char.isDigit = true)
    (hne : ds ≠ []) : padDigits (natOfDigits ds) ds.length = ds := by
  induction ds with
  | nil => exact absurd rfl hne
  | cons c rest ih =>
    simp only [List.all_cons, Bool.and_eq_true] at hd
    by_cases hc0 : c = '0'
    · subst hc0
      rw [natOfDigits_cons_zero]
      cases rest with
      | nil => decide
      | cons r rs =>
        have ihr := ih hd.2 (by simp)
        have hlen := congrArg List.length ihr
        simp only [padDigits, List.length_append, List.length_replicate] at hlen
        have hnl : (natDigits (natOfDigits (r :: rs))).length ≤ (r :: rs).length := by
          omega
        show padDigits (natOfDigits (r :: rs)) ((r :: rs).length + 1) = _
        rw [padDigits, show (r :: rs).length + 1 -
            (natDigits (natOfDigits (r :: rs))).length =
            ((r :: rs).length - (natDigits (natOfDigits (r :: rs))).length) + 1
            by omega]
        rw [List.replicate_succ, List.cons_append]
        exact congrArg ('0' :: ·) ihr
    · have hlead := natDigits_of_lead c rest hd.1 hc0 hd.2
      rw [padDigits, hlead]
      simp

/-! ### Lexicographic comparison of character lists -/

theorem lexLt_irrefl (a : List Char) : lexLt a a = false := by
  induction a with
  | nil => rfl
  | cons c as ih =>
    simp only [lexLt, Nat.lt_irrefl, if_false, ih]

theorem lexLt_trans : ∀ {a b c : List Char},
    lexLt a b = true → lexLt b c = true → lexLt a c = true := by
  intro a
  induction a with
  | nil =>
    intro b c h1 h2
    cases b with
    | nil => cases h1
    | cons y bs =>
      cases c with
      | nil => cases h2
      | cons z cs => rfl
  | cons x as ih =>
    intro b c h1 h2
    cases b with
    | nil => cases h1
    | cons y bs =>
      cases c with
      | nil => cases h2
      | cons z cs =>
        simp only [lexLt] at h1 h2 ⊢
        split at h1
        · rename_i hxy
          split at h2
          · rename_i hyz
            rw [if_pos (Nat.lt_trans hxy hyz)]
          · split at h2
            · cases h2
            · rename_i hyz hzy
              rw [if_pos (by omega)]
        · split at h1
          · cases h1
          · rename_i hxy hyx
            split at h2
            · rename_i hyz
              rw [if_pos (by omega)]
            · split at h2
              · cases h2
              · rename_i hyz hzy
                rw [if_neg (by omega), if_neg (by omega)]
                exact ih h1 h2

theorem lexLt_antisymm : ∀ {a b : List Char},
    lexLt a b = false → lexLt b a = false → a = b := by
  intro a
  induction a with
  | nil =>
    intro b h1 _
    cases b with
    | nil => rfl
    | cons y bs => cases h1
  | cons x as ih =>
    intro b h1 h2
    cases b with
    | nil => cases h2
    | cons y bs =>
      simp only [lexLt] at h1 h2
      by_cases hxy : x.toNat < y.toNat
      · rw [if_pos hxy] at h1; cases h1
      · by_cases hyx : y.toNat < x.toNat
        · rw [if_pos hyx] at h2; cases h2
        · rw [if_neg hxy, if_neg hyx] at h1
          rw [if_neg hyx, if_neg hxy] at h2
          have hx : x = y := char_toNat_inj (by omega)
          subst hx
          rw [ih h1 h2]

theorem lexLt_append_cancel (h a b : List Char) :
    lexLt (h ++ a) (h ++ b) = lexLt a b := by
  induction h with
  | nil => rfl
  | cons c hs ih =>
    simp only [List.cons_append, lexLt, Nat.lt_irrefl, if_false]
    exact ih

theorem lexLt_digits_iff : ∀ {a b : List Char}, a.length = b.length →
    a.all Char.isDigit = true → b.all Char.isDigit = true →
    (lexLt a b = true ↔ natOfDigits a < natOfDigits b) := by
  intro a
  induction a with
  | nil =>
    intro b hlen _ _
    have hb : b = [] := List.eq_nil_of_length_eq_zero (by simpa using hlen.symm)
    subst hb
    simp [lexLt, natOfDigits_nil]
  | cons x as ih =>
    intro b hlen ha hb
    cases b with
    | nil => simp at hlen
    | cons y bs =>
      simp only [List.all_cons, Bool.and_eq_true] at ha hb
      have hx := isDigit_toNat ha.1
      have hy := isDigit_toNat hb.1
      have hlen2 : as.length = bs.length := by simpa using hlen
      have bas := natOfDigits_lt as ha.2
      have bbs := natOfDigits_lt bs hb.2
      rw [natOfDigits_cons, natOfDigits_cons, hlen2]
      have hP : 0 < 10 ^ bs.length := Nat.pos_pow_of_pos _ (by norm_num)
      simp only [lexLt]
      rw [hlen2] at bas
      split
      · rename_i hxy
        have hlt : (x.toNat - 48) * 10 ^ bs.length + natOfDigits as <
            (y.toNat - 48) * 10 ^ bs.length + natOfDigits bs := by
          have hstep : (x.toNat - 48) + 1 ≤ y.toNat - 48 := by omega
          calc (x.toNat - 48) * 10 ^ bs.length + natOfDigits as
              < (x.toNat - 48) * 10 ^ bs.length + 10 ^ bs.length := by omega
            _ = ((x.toNat - 48) + 1) * 10 ^ bs.length := by ring
            _ ≤ (y.toNat - 48) * 10 ^ bs.length := Nat.mul_le_mul_right _ hstep
            _ ≤ _ := Nat.le_add_right _ _
        simp [hlt]
      · split
        · rename_i hxy hyx
          have hgt : (y.toNat - 48) * 10 ^ bs.length + natOfDigits bs <
              (x.toNat - 48) * 10 ^ bs.length + natOfDigits as := by
            have hstep : (y.toNat - 48) + 1 ≤ x.toNat - 48 := by omega
            calc (y.toNat - 48) * 10 ^ bs.length + natOfDigits bs
                < (y.toNat - 48) * 10 ^ bs.length + 10 ^ bs.length := by omega
              _ = ((y.toNat - 48) + 1) * 10 ^ bs.length := by ring
              _ ≤ (x.toNat - 48) * 10 ^ bs.length := Nat.mul_le_mul_right _ hstep
              _ ≤ _ := Nat.le_add_right _ _
          constructor
          · intro h; cases h
          · intro h; omega
        · rename_i hxy hyx
          have heq : x.toNat - 48 = y.toNat - 48 := by omega
          rw [heq]
          have hiff := ih hlen2 ha.2 hb.2
          constructor
          · intro h
            have := hiff.mp h
            omega
          · intro h
            exact hiff.mpr (by omega)

/-! ### takeWhile / dropWhile on a decomposed list -/

theorem takeWhile_all_append {p : Char → Bool} :
    ∀ (a : List Char) (c : Char) (b : List Char),
    (∀ x ∈ a, p x = true) → p c = false →
    (a ++ c :: b).takeWhile p = a ∧ (a ++ c :: b).dropWhile p = c :: b := by
  intro a
  induction a with
  | nil =>
    intro c b _ hc
    have hc2 : ¬ (p c = true) := by simp [hc]
    exact ⟨List.takeWhile_cons_of_neg hc2, List.dropWhile_cons_of_neg hc2⟩
  | cons x as ih =>
    intro c b ha hc
    have hx : p x = true := ha x (List.mem_cons_self x as)
    have ihr := ih c b (fun y hy => ha y (List.mem_cons_of_mem x hy)) hc
    constructor
    · rw [List.cons_append, List.takeWhile_cons_of_pos hx, ihr.1]
    · rw [List.cons_append, List.dropWhile_cons_of_pos hx]
      exact ihr.2

/-! ### Soundness and completeness of the parser embedding -/

theorem parse_pattern_complete {h d1 d2 rest : List Char}
    (hh : h.all isClassChar = true) (h1ne : d1 ≠ [])
    (h1d : d1.all Char.isDigit = true) (h2ne : d2 ≠ [])
    (h2d : d2.all Char.isDigit = true) :
    parse_pattern (h ++ '[' :: (d1 ++ ':' :: (d2 ++ ']' :: rest))) =
      some ⟨h, d1, d2⟩ := by
  have hcl : ∀ x ∈ h, isClassChar x = true := List.all_eq_true.mp hh
  have h1l : ∀ x ∈ d1, Char.isDigit x = true := List.all_eq_true.mp h1d
  have h2l : ∀ x ∈ d2, Char.isDigit x = true := List.all_eq_true.mp h2d
  obtain ⟨htw, hdw⟩ := takeWhile_all_append h '['
    (d1 ++ ':' :: (d2 ++ ']' :: rest)) hcl (by decide)
  obtain ⟨htw1, hdw1⟩ := takeWhile_all_append d1 ':'
    (d2 ++ ']' :: rest) h1l (by decide)
  obtain ⟨htw2, hdw2⟩ := takeWhile_all_append d2 ']' rest h2l (by decide)
  unfold parse_pattern
  simp only [htw, hdw, htw1, hdw1, htw2, hdw2]
  rw [if_neg h1ne, if_neg h2ne]

theorem parse_pattern_sound {raw : List Char} {pd : PatternDict}
    (h : parse_pattern raw = some pd) :
    pd.hostname.all isClassChar = true ∧ pd.range_start ≠ [] ∧
    pd.range_start.all Char.isDigit = true ∧ pd.range_end ≠ [] ∧
    pd.range_end.all Char.isDigit = true ∧
    ∃ rest, raw = pd.hostname ++ '[' ::
      (pd.range_start ++ ':' :: (pd.range_end ++ ']' :: rest)) := by
  unfold parse_pattern at h
  split at h
  · rename_i r2 heq1
    split at h
    · cases h
    · rename_i h1e
      split at h
      · rename_i r4 heq2
        split at h
        · cases h
        · rename_i h2e
          split at h
          · rename_i r5 heq3
            cases h
            refine ⟨?_, h1e, ?_, h2e, ?_, r5, ?_⟩
            · exact List.all_eq_true.mpr fun x hx => List.mem_takeWhile_imp hx
            · exact List.all_eq_true.mpr fun x hx => List.mem_takeWhile_imp hx
            · exact List.all_eq_true.mpr fun x hx => List.mem_takeWhile_imp hx
            · calc raw = raw.takeWhile isClassChar ++ raw.dropWhile isClassChar :=
                    (List.takeWhile_append_dropWhile _ _).symm
                _ = raw.takeWhile isClassChar ++ '[' :: r2 := by rw [heq1]
                _ = raw.takeWhile isClassChar ++ '[' ::
                    (r2.takeWhile Char.isDigit ++ r2.dropWhile Char.isDigit) := by
                    rw [List.takeWhile_append_dropWhile]
                _ = raw.takeWhile isClassChar ++ '[' ::
                    (r2.takeWhile Char.isDigit ++ ':' :: r4) := by rw [heq2]
                _ = raw.takeWhile isClassChar ++ '[' ::
                    (r2.takeWhile Char.isDigit ++ ':' ::
                      (r4.takeWhile Char.isDigit ++ r4.dropWhile Char.isDigit)) := by
                    rw [List.takeWhile_append_dropWhile]
                _ = _ := by rw [heq3]
          · cases h
      · cases h
  · cases h

theorem parse_pattern_none_iff {raw : List Char} :
    parse_pattern raw = none ↔ ¬ MatchesAnchoredGrammar raw := by
  constructor
  · intro h hg
    obtain ⟨hh, d1, d2, rest, hraw, hcl, h1ne, h1d, h2ne, h2d⟩ := hg
    rw [hraw, parse_pattern_complete hcl h1ne h1d h2ne h2d] at h
    cases h
  · intro hg
    cases hp : parse_pattern raw with
    | none => rfl
    | some pd =>
      obtain ⟨hcl, h1ne, h1d, h2ne, h2d, rest, hraw⟩ := parse_pattern_sound hp
      exact absurd ⟨pd.hostname, pd.range_start, pd.range_end, rest,
        hraw, hcl, h1ne, h1d, h2ne, h2d⟩ hg

/-! ### The membership regex -/

theorem matchIdGroup_some_iff {host : List Char} {w : Nat} {tag ds : List Char} :
    matchIdGroup host w tag = some ds ↔
      ds.length = w ∧ ds.all Char.isDigit = true ∧
        ∃ rest, tag = host ++ (ds ++ rest) := by
  constructor
  · intro h
    unfold matchIdGroup at h
    split at h
    · rename_i hpre
      split at h
      · rename_i hds
        cases h
        refine ⟨hds.1, hds.2, (tag.drop host.length).drop w, ?_⟩
        calc tag = tag.take host.length ++ tag.drop host.length :=
              (List.take_append_drop _ _).symm
          _ = host ++ tag.drop host.length := by rw [hpre]
          _ = host ++ ((tag.drop host.length).take w ++
              (tag.drop host.length).drop w) := by rw [List.take_append_drop]
      · cases h
    · cases h
  · rintro ⟨hlen, hdig, rest, rfl⟩
    unfold matchIdGroup
    have ht : (host ++ (ds ++ rest)).take host.length = host := List.take_left _ _
    have hd : (host ++ (ds ++ rest)).drop host.length = ds ++ rest :=
      List.drop_left _ _
    rw [if_pos ht, hd, List.take_left' hlen, if_pos ⟨hlen, hdig⟩]

theorem matchIdGroup_none_iff {host : List Char} {w : Nat} {tag : List Char} :
    matchIdGroup host w tag = none ↔ ¬ StartsWithIdRun host w tag := by
  constructor
  · intro h hs
    obtain ⟨ds, rest, htag, hlen, hdig⟩ := hs
    have := matchIdGroup_some_iff.mpr ⟨hlen, hdig, rest, htag⟩
    rw [h] at this
    cases this
  · intro hs
    cases hm : matchIdGroup host w tag with
    | none => rfl
    | some ds =>
      obtain ⟨hlen, hdig, rest, htag⟩ := matchIdGroup_some_iff.mp hm
      exact absurd ⟨ds, rest, htag, hlen, hdig⟩ hs

/-! ### Python max over strings and over ids -/

theorem foldl_pick_mem : ∀ (l : List String) (acc : String),
    l.foldl (fun acc x => if lexLt acc.data x.data then x else acc) acc = acc ∨
    l.foldl (fun acc x => if lexLt acc.data x.data then x else acc) acc ∈ l := by
  intro l
  induction l with
  | nil => intro acc; exact Or.inl rfl
  | cons x l ih =>
    intro acc
    simp only [List.foldl_cons]
    by_cases hax : lexLt acc.data x.data = true
    · rw [if_pos hax]
      rcases ih x with h | h
      · exact Or.inr (by rw [h]; exact List.mem_cons_self x l)
      · exact Or.inr (List.mem_cons_of_mem x h)
    · rw [if_neg hax]
      rcases ih acc with h | h
      · exact Or.inl h
      · exact Or.inr (List.mem_cons_of_mem x h)

theorem foldl_pick_ge : ∀ (l : List String) (acc s : String), (s = acc ∨ s ∈ l) →
    lexLt (l.foldl (fun acc x => if lexLt acc.data x.data then x else acc)
      acc).data s.data = false := by
  intro l
  induction l with
  | nil =>
    rintro acc s (rfl | h)
    · exact lexLt_irrefl _
    · cases h
  | cons x l ih =>
    intro acc s hs
    simp only [List.foldl_cons]
    rcases hs with rfl | hmem
    · by_cases hax : lexLt s.data x.data = true
      · rw [if_pos hax]
        have hfin := ih x x (Or.inl rfl)
        by_contra hcon
        rw [Bool.not_eq_false] at hcon
        rw [lexLt_trans hcon hax] at hfin
        cases hfin
      · rw [if_neg hax]
        exact ih s s (Or.inl rfl)
    · rcases List.mem_cons.mp hmem with rfl | hmem2
      · by_cases hax : lexLt acc.data s.data = true
        · rw [if_pos hax]
          exact ih s s (Or.inl rfl)
        · rw [if_neg hax]
          have hfa := ih acc acc (Or.inl rfl)
          by_contra hcon
          rw [Bool.not_eq_false] at hcon
          rw [Bool.not_eq_true] at hax
          cases hsa : lexLt s.data acc.data with
          | true =>
            rw [lexLt_trans hcon hsa] at hfa
            cases hfa
          | false =>
            have heq : acc.data = s.data := lexLt_antisymm hax hsa
            rw [heq] at hfa
            rw [hcon] at hfa
            cases hfa
      · exact ih _ s (Or.inr hmem2)

theorem pyMax_mem (t : String) (ts : List String) : pyMax t ts ∈ t :: ts := by
  have h2 : pyMax t ts =
      ts.foldl (fun acc x => if lexLt acc.data x.data then x else acc) t := rfl
  rw [h2]
  rcases foldl_pick_mem ts t with h | h
  · rw [h]; exact List.mem_cons_self _ _
  · exact List.mem_cons_of_mem _ h

theorem pyMax_not_lt (t : String) (ts : List String) :
    ∀ s ∈ t :: ts, lexLt (pyMax t ts).data s.data = false := by
  intro s hs
  rcases List.mem_cons.mp hs with heq | hmem
  · exact foldl_pick_ge ts t s (Or.inl heq)
  · exact foldl_pick_ge ts t s (Or.inr hmem)

theorem le_foldl_max : ∀ (l : List Nat) (a x : Nat), (x = a ∨ x ∈ l) →
    x ≤ l.foldl Nat.max a := by
  intro l
  induction l with
  | nil =>
    rintro a x (rfl | h)
    · exact Nat.le_refl _
    · cases h
  | cons y l ih =>
    intro a x hx
    simp only [List.foldl_cons]
    rcases hx with rfl | hmem
    · exact Nat.le_trans (Nat.le_max_left x y) (ih (Nat.max x y) _ (Or.inl rfl))
    · rcases List.mem_cons.mp hmem with rfl | hmem2
      · exact Nat.le_trans (Nat.le_max_right a x) (ih (Nat.max a x) _ (Or.inl rfl))
      · exact ih _ x (Or.inr hmem2)

theorem foldl_max_le : ∀ (l : List Nat) (a b : Nat), a ≤ b →
    (∀ x ∈ l, x ≤ b) → l.foldl Nat.max a ≤ b := by
  intro l
  induction l with
  | nil => intro a b ha _; exact ha
  | cons y l ih =>
    intro a b ha hl
    simp only [List.foldl_cons]
    exact ih _ b (Nat.max_le.mpr ⟨ha, hl y (List.mem_cons_self y l)⟩)
      (fun x hx => hl x (List.mem_cons_of_mem y hx))

theorem idOf_le_maxTakenId {pd : PatternDict} {t : String} {ts : List String}
    (s : String) (hs : s ∈ t :: ts) : idOf pd s ≤ maxTakenId pd t ts := by
  rcases List.mem_cons.mp hs with heq | hmem
  · exact le_foldl_max _ _ _ (Or.inl (congrArg (idOf pd) heq))
  · exact le_foldl_max _ _ _ (Or.inr (List.mem_map_of_mem (idOf pd) hmem))

/-- The lexicographic maximum of a non-empty list of conforming names is a
conforming name whose digit run carries exactly the maximum of the ids. -/
theorem maxTakenId_spec {pd : PatternDict} {t : String} {ts : List String}
    (hc : ∀ s ∈ t :: ts, Conforms pd s) :
    ∃ dsm, (pyMax t ts).data = pd.hostname ++ dsm ∧
      dsm.length = pd.range_start.length ∧ dsm.all Char.isDigit = true ∧
      natOfDigits dsm = maxTakenId pd t ts := by
  obtain ⟨dsm, hmx, hlen, hdig, -, -⟩ := hc _ (pyMax_mem t ts)
  refine ⟨dsm, hmx, hlen, hdig, ?_⟩
  have hid : idOf pd (pyMax t ts) = natOfDigits dsm := by
    rw [idOf, hmx, List.drop_left]
  apply Nat.le_antisymm
  · rw [← hid]
    exact idOf_le_maxTakenId _ (pyMax_mem t ts)
  · have hub : ∀ s ∈ t :: ts, idOf pd s ≤ natOfDigits dsm := by
      intro s hs
      obtain ⟨dss, hse, hsl, hsd, -, -⟩ := hc s hs
      have hlex := pyMax_not_lt t ts s hs
      rw [hmx, hse, lexLt_append_cancel] at hlex
      have hiff := lexLt_digits_iff (hlen.trans hsl.symm) hdig hsd
      have hnlt : ¬ (natOfDigits dsm < natOfDigits dss) := by
        intro hlt
        rw [hiff.mpr hlt] at hlex
        cases hlex
      rw [idOf, hse, List.drop_left]
      omega
    exact foldl_max_le _ _ _ (hub t (List.mem_cons_self t ts))
      (by
        intro x hx
        obtain ⟨s, hsmem, rfl⟩ := List.mem_map.mp hx
        exact hub s (List.mem_cons_of_mem t hsmem))

/-! ### The allocator on conforming inputs -/

theorem genNames_length (host : List Char) (w start n : Nat) :
    (genNames host w start n).length = n := by
  simp [genNames]

theorem genNames_getElem {host : List Char} {w start n i : Nat} (h : i < n) :
    (genNames host w start n)[i]? =
      some (String.mk (host ++ padDigits (start + i) w)) := by
  simp [genNames, List.getElem?_range h]

theorem genNames_mem {host : List Char} {w start n : Nat} {s : String}
    (h : s ∈ genNames host w start n) :
    ∃ i, i < n ∧ s = String.mk (host ++ padDigits (start + i) w) := by
  obtain ⟨i, hi, heq⟩ := List.mem_map.mp h
  exact ⟨i, List.mem_range.mp hi, heq.symm⟩

theorem idOf_mk_pad (pd : PatternDict) (k w : Nat) :
    idOf pd (String.mk (pd.hostname ++ padDigits k w)) = k := by
  show natOfDigits ((pd.hostname ++ padDigits k w).drop pd.hostname.length) = k
  rw [List.drop_left, natOfDigits_padDigits]

theorem genNames_nodup (pd : PatternDict) (w start n : Nat) :
    (genNames pd.hostname w start n).Nodup := by
  apply List.Nodup.map ?_ (List.nodup_range n)
  intro i j hij
  have h2 := congrArg (idOf pd) hij
  rw [idOf_mk_pad, idOf_mk_pad] at h2
  omega

/-- Unfolding of the allocator on a pattern that parses and a taken list
whose members all conform: it returns the generated block starting at the
spec's start id. -/
theorem fresh_names_conforming {pat : String} {pd : PatternDict}
    (hp : parse_pattern pat.data = some pd) (taken : List String) (n : Nat)
    (hc : ∀ s ∈ taken, Conforms pd s) :
    fresh_names pat taken n =
      some (genNames pd.hostname pd.range_start.length (startOf pd taken) n) := by
  cases taken with
  | nil =>
    unfold fresh_names
    rw [hp]
    rfl
  | cons t ts =>
    obtain ⟨dsm, hmx, hlen, hdig, hval⟩ := maxTakenId_spec hc
    have hm : matchIdGroup pd.hostname pd.range_start.length (pyMax t ts).data =
        some dsm :=
      matchIdGroup_some_iff.mpr ⟨hlen, hdig, [], by rw [hmx, List.append_nil]⟩
    unfold fresh_names
    rw [hp]
    simp only [hm]
    rw [hval]
    rfl

/-! ### Unfolding of the membership test once the pattern parses -/

theorem check_pattern_eq {α : Type} (pat tag : String) (u : α) {pd : PatternDict}
    (hp : parse_pattern pat.data = some pd) :
    check_pattern pat tag u =
      match matchIdGroup pd.hostname pd.range_start.length tag.data with
      | some ds => some (decide (natOfDigits pd.range_start ≤ natOfDigits ds ∧
          natOfDigits ds ≤ natOfDigits pd.range_end))
      | none => some false := by
  unfold check_pattern
  rw [hp]

/-! ### The spec-side membership predicate, characterised -/

theorem matchesSpec_iff {pd : PatternDict} {tag : String} :
    matchesSpec pd tag = true ↔
      ∃ k, natOfDigits pd.range_start ≤ k ∧ k ≤ natOfDigits pd.range_end ∧
        tag.data = pd.hostname ++ padDigits k pd.range_start.length := by
  unfold matchesSpec
  constructor
  · intro h
    simp only [Bool.and_eq_true, beq_iff_eq, decide_eq_true_eq] at h
    obtain ⟨⟨⟨⟨⟨htake, -⟩, -⟩, hpad⟩, hlo⟩, hhi⟩ := h
    refine ⟨natOfDigits (tag.data.drop pd.hostname.length), hlo, hhi, ?_⟩
    calc tag.data = tag.data.take pd.hostname.length ++
          tag.data.drop pd.hostname.length := (List.take_append_drop _ _).symm
      _ = pd.hostname ++ tag.data.drop pd.hostname.length := by rw [htake]
      _ = _ := by rw [hpad]
  · rintro ⟨k, hlo, hhi, htag⟩
    have hdrop : tag.data.drop pd.hostname.length =
        padDigits k pd.range_start.length := by rw [htag, List.drop_left]
    have htake : tag.data.take pd.hostname.length = pd.hostname := by
      rw [htag, List.take_left]
    simp only [Bool.and_eq_true, beq_iff_eq, decide_eq_true_eq, htake, hdrop,
      natOfDigits_padDigits]
    refine ⟨⟨⟨⟨⟨trivial, padDigits_ne_nil _ _⟩, padDigits_all_digit _ _⟩,
      trivial⟩, hlo⟩, hhi⟩

/-! ### The spec-side full grammar, characterised -/

theorem fullGrammar_iff {raw : List Char} :
    fullGrammar raw = true ↔
      ∃ h d1 d2, raw = h ++ '[' :: (d1 ++ ':' :: (d2 ++ [']'])) ∧
        h.all isClassChar = true ∧ d1 ≠ [] ∧ d1.all Char.isDigit = true ∧
        d2 ≠ [] ∧ d2.all Char.isDigit = true := by
  constructor
  · intro hg
    unfold fullGrammar at hg
    split at hg
    · rename_i r2 heq1
      split at hg
      · cases hg
      · rename_i h1e
        split at hg
        · rename_i r4 heq2
          split at hg
          · cases hg
          · rename_i h2e
            split at hg
            · rename_i heq3
              refine ⟨raw.takeWhile isClassChar, r2.takeWhile Char.isDigit,
                r4.takeWhile Char.isDigit, ?_, ?_, h1e, ?_, h2e, ?_⟩
              · calc raw = raw.takeWhile isClassChar ++
                      raw.dropWhile isClassChar :=
                      (List.takeWhile_append_dropWhile _ _).symm
                  _ = raw.takeWhile isClassChar ++ '[' :: r2 := by rw [heq1]
                  _ = raw.takeWhile isClassChar ++ '[' ::
                      (r2.takeWhile Char.isDigit ++
                        r2.dropWhile Char.isDigit) := by
                      rw [List.takeWhile_append_dropWhile]
                  _ = raw.takeWhile isClassChar ++ '[' ::
                      (r2.takeWhile Char.isDigit ++ ':' :: r4) := by rw [heq2]
                  _ = raw.takeWhile isClassChar ++ '[' ::
                      (r2.takeWhile Char.isDigit ++ ':' ::
                        (r4.takeWhile Char.isDigit ++
                          r4.dropWhile Char.isDigit)) := by
                      rw [List.takeWhile_append_dropWhile]
                  _ = _ := by rw [heq3]
              · exact List.all_eq_true.mpr fun x hx => List.mem_takeWhile_imp hx
              · exact List.all_eq_true.mpr fun x hx => List.mem_takeWhile_imp hx
              · exact List.all_eq_true.mpr fun x hx => List.mem_takeWhile_imp hx
            · cases hg
        · cases hg
    · cases hg
  · rintro ⟨h, d1, d2, rfl, hcl, h1ne, h1d, h2ne, h2d⟩
    have hcll : ∀ x ∈ h, isClassChar x = true := List.all_eq_true.mp hcl
    have h1l : ∀ x ∈ d1, Char.isDigit x = true := List.all_eq_true.mp h1d
    have h2l : ∀ x ∈ d2, Char.isDigit x = true := List.all_eq_true.mp h2d
    obtain ⟨htw, hdw⟩ := takeWhile_all_append h '['
      (d1 ++ ':' :: (d2 ++ [']'])) hcll (by decide)
    obtain ⟨htw1, hdw1⟩ := takeWhile_all_append d1 ':' (d2 ++ [']']) h1l (by decide)
    obtain ⟨htw2, hdw2⟩ := takeWhile_all_append d2 ']' [] h2l (by decide)
    unfold fullGrammar
    simp only [hdw, htw1, hdw1, htw2, hdw2]
    rw [if_neg h1ne, if_neg h2ne]

/-! ### The claims -/

/-- C1: the claim asserts that the allocator fails with a
CapacityExceededError when the requested sequence would exceed the upper
bound; the source performs no such check.  On the claim's own instance —
pattern srv[01:02], names srv01 and srv02 (ids 1 and 2) taken, one name
requested — the code happily returns srv03, whose id 3 exceeds the upper
bound 2, instead of failing. -/
theorem claim_C1_code_behaviour :
    fresh_names "srv[01:02]" ["srv01", "srv02"] 1 = some ["srv03"] ∧
    idOf ⟨"srv".data, ['0', '1'], ['0', '2']⟩ "srv03" = 3 ∧
    natOfDigits ['0', '2'] = 2 := by
  exact ⟨by decide, by decide, by decide⟩

/-- C2 (amended): the membership test reports a match exactly when the
candidate BEGINS WITH the prefix followed by the zero-padded decimal
rendering of an id within the bounds; the regex is anchored at the start
only, so trailing characters after the digit run do not invalidate the
match.  (The original claim's full-equality reading fails, see the
counterexample.) -/
theorem claim_C2 {α : Type} (pat tag : String) (pd : PatternDict) (u : α)
    (hp : parse_pattern pat.data = some pd) :
    check_pattern pat tag u = some true ↔
      ∃ k rest, natOfDigits pd.range_start ≤ k ∧
        k ≤ natOfDigits pd.range_end ∧ k < 10 ^ pd.range_start.length ∧
        tag.data = pd.hostname ++ (padDigits k pd.range_start.length ++ rest) := by
  obtain ⟨-, h1ne, h1d, -, -, -⟩ := parse_pattern_sound hp
  have hw : 1 ≤ pd.range_start.length := List.length_pos.mpr h1ne
  rw [check_pattern_eq pat tag u hp]
  cases hm : matchIdGroup pd.hostname pd.range_start.length tag.data with
  | none =>
    constructor
    · intro hcontra; simp at hcontra
    · rintro ⟨k, rest, hlo, hhi, hk, htag⟩
      have hds := matchIdGroup_some_iff.mpr
        ⟨padDigits_length_of_lt hw hk, padDigits_all_digit _ _, rest, htag⟩
      rw [hm] at hds
      cases hds
  | some ds =>
    obtain ⟨hlen, hdig, rest, htag⟩ := matchIdGroup_some_iff.mp hm
    have hne : ds ≠ [] := by
      intro h0
      rw [h0] at hlen
      simp at hlen
      omega
    constructor
    · intro h
      have hP : natOfDigits pd.range_start ≤ natOfDigits ds ∧
          natOfDigits ds ≤ natOfDigits pd.range_end :=
        of_decide_eq_true (Option.some.inj h)
      have hbound : natOfDigits ds < 10 ^ pd.range_start.length := by
        have hb := natOfDigits_lt ds hdig
        rw [hlen] at hb
        exact hb
      have hcan := padDigits_val hdig hne
      rw [hlen] at hcan
      exact ⟨natOfDigits ds, rest, hP.1, hP.2, hbound, by rw [hcan]; exact htag⟩
    · rintro ⟨k, rest2, hlo, hhi, hk, htag2⟩
      have he : ds ++ rest = padDigits k pd.range_start.length ++ rest2 :=
        List.append_cancel_left (htag.symm.trans htag2)
      have hdse : ds = padDigits k pd.range_start.length :=
        List.append_inj_left he (by rw [hlen, padDigits_length_of_lt hw hk])
      have hv : natOfDigits ds = k := by rw [hdse, natOfDigits_padDigits]
      have hdec : decide (natOfDigits pd.range_start ≤ natOfDigits ds ∧
          natOfDigits ds ≤ natOfDigits pd.range_end) = true :=
        decide_eq_true ⟨by omega, by omega⟩
      show some (decide (natOfDigits pd.range_start ≤ natOfDigits ds ∧
          natOfDigits ds ≤ natOfDigits pd.range_end)) = some true
      rw [hdec]

/-- C2, counterexample to the claim as stated: on pattern web[1:9] the code
reports a match for web55 (the anchored regex captures the first digit and
ignores the trailing 5), although web55 does not EQUAL the prefix followed
by the padded rendering of any id within 1..9 — the spec-side full-equality
membership predicate rejects it. -/
theorem claim_C2_counterexample :
    check_pattern "web[1:9]" "web55" () = some true ∧
    matchesSpec ⟨"web".data, ['1'], ['9']⟩ "web55" = false := by
  exact ⟨by decide, by decide⟩

/-- C2, witness: the amended characterisation applied to the pattern
web[1:9] and the candidate web57. -/
theorem claim_C2_witness :
    check_pattern "web[1:9]" "web57" () = some true :=
  (claim_C2 "web[1:9]" "web57" ⟨"web".data, ['1'], ['9']⟩ () (by decide)).mpr
    ⟨5, ['7'], by decide, by decide, by decide, by decide⟩

/-- C3: on a pattern that parses and a taken list whose members all conform,
the allocator returns exactly count names; the i-th is the prefix followed
by the decimal rendering of start + i zero-padded to the width, where start
is max(taken ids) + 1 for a non-empty taken list and the lower bound for an
empty one (that is what startOf computes). -/
theorem claim_C3 (pat : String) (pd : PatternDict) (taken : List String)
    (n : Nat) (hp : parse_pattern pat.data = some pd)
    (hc : ∀ s ∈ taken, Conforms pd s) :
    ∃ names, fresh_names pat taken n = some names ∧ names.length = n ∧
      ∀ i, i < n → names[i]? = some (String.mk (pd.hostname ++
        padDigits (startOf pd taken + i) pd.range_start.length)) :=
  ⟨_, fresh_names_conforming hp taken n hc, genNames_length _ _ _ _,
    fun _ hi => genNames_getElem hi⟩

/-- C3, witness: pattern host[01:05] with host02 taken and two names
requested. -/
theorem claim_C3_witness :
    ∃ names, fresh_names "host[01:05]" ["host02"] 2 = some names ∧
      names.length = 2 ∧ ∀ i, i < 2 → names[i]? = some (String.mk
        ("host".data ++ padDigits
          (startOf ⟨"host".data, ['0', '1'], ['0', '5']⟩ ["host02"] + i) 2)) := by
  exact claim_C3 "host[01:05]" ⟨"host".data, ['0', '1'], ['0', '5']⟩
    ["host02"] 2 (by decide)
    (by
      intro s hs
      have hs2 : s = "host02" := by simpa using hs
      subst hs2
      exact ⟨['0', '2'], by decide, by decide, by decide, by decide, by decide⟩)

/-- C4 (amended): the parser fails exactly when the string does not BEGIN
WITH the grammar prefix-then-bracketed-range; because the regex is applied
with re.match (anchored at the start only), characters after the closing
bracket are accepted.  (The original claim's full-string reading fails,
see the counterexample.) -/
theorem claim_C4 (raw : String) :
    parse_pattern raw.data = none ↔ ¬ MatchesAnchoredGrammar raw.data :=
  parse_pattern_none_iff

/-- C4, counterexample to the claim as stated: a[1:2]x has trailing
characters that fall outside the grammar — the spec-side full-grammar
predicate rejects it — yet the parser accepts it; the bracket-less
myhost-01 of scenario D does fail. -/
theorem claim_C4_counterexample :
    parse_pattern "a[1:2]x".data = some ⟨['a'], ['1'], ['2']⟩ ∧
    fullGrammar "a[1:2]x".data = false ∧
    parse_pattern "myhost-01".data = none := by
  exact ⟨by decide, by decide, by decide⟩

/-- C5: on a pattern that parses and a non-empty taken list whose members
all conform, the returned names are pairwise distinct and none of them
carries a numeric id already carried by a taken name. -/
theorem claim_C5 (pat : String) (pd : PatternDict) (t : String)
    (ts : List String) (n : Nat) (hp : parse_pattern pat.data = some pd)
    (hc : ∀ s ∈ t :: ts, Conforms pd s) :
    ∃ names, fresh_names pat (t :: ts) n = some names ∧ names.Nodup ∧
      ∀ x ∈ names, ∀ s ∈ t :: ts, idOf pd x ≠ idOf pd s := by
  refine ⟨_, fresh_names_conforming hp (t :: ts) n hc,
    genNames_nodup pd _ _ _, ?_⟩
  intro x hx s hs
  obtain ⟨i, hi, rfl⟩ := genNames_mem hx
  rw [idOf_mk_pad]
  have hle := @idOf_le_maxTakenId pd t ts s hs
  have hst : startOf pd (t :: ts) = maxTakenId pd t ts + 1 := rfl
  omega

/-- C5, witness: pattern host[01:05] with host02 taken and two names
requested; the two fresh names are distinct and avoid id 2. -/
theorem claim_C5_witness :
    ∃ names, fresh_names "host[01:05]" ["host02"] 2 = some names ∧
      names.Nodup ∧ ∀ x ∈ names, ∀ s ∈ ["host02"],
        idOf ⟨"host".data, ['0', '1'], ['0', '5']⟩ x ≠
        idOf ⟨"host".data, ['0', '1'], ['0', '5']⟩ s := by
  exact claim_C5 "host[01:05]" ⟨"host".data, ['0', '1'], ['0', '5']⟩
    "host02" [] 2 (by decide)
    (by
      intro s hs
      have hs2 : s = "host02" := by simpa using hs
      subst hs2
      exact ⟨['0', '2'], by decide, by decide, by decide, by decide, by decide⟩)

/-- C6: on a pattern that parses and a taken list whose members all conform,
consecutive returned names carry consecutive ids — each id is exactly one
greater than the previous one. -/
theorem claim_C6 (pat : String) (pd : PatternDict) (taken : List String)
    (n : Nat) (hp : parse_pattern pat.data = some pd)
    (hc : ∀ s ∈ taken, Conforms pd s) :
    ∃ names, fresh_names pat taken n = some names ∧
      ∀ i a b, names[i]? = some a → names[i + 1]? = some b →
        idOf pd b = idOf pd a + 1 := by
  refine ⟨_, fresh_names_conforming hp taken n hc, ?_⟩
  intro i a b ha hb
  have hlt2 : i + 1 < n := by
    obtain ⟨hlt, -⟩ := List.getElem?_eq_some.mp hb
    rw [genNames_length] at hlt
    exact hlt
  have hlt1 : i < n := by omega
  rw [genNames_getElem hlt1] at ha
  rw [genNames_getElem hlt2] at hb
  have ha2 := Option.some.inj ha
  have hb2 := Option.some.inj hb
  rw [← ha2, ← hb2, idOf_mk_pad, idOf_mk_pad]
  omega

/-- C6, witness: pattern host[01:05] with host02 taken and three names
requested; ids run 3, 4, 5 consecutively. -/
theorem claim_C6_witness :
    ∃ names, fresh_names "host[01:05]" ["host02"] 3 = some names ∧
      ∀ i a b, names[i]? = some a → names[i + 1]? = some b →
        idOf ⟨"host".data, ['0', '1'], ['0', '5']⟩ b =
        idOf ⟨"host".data, ['0', '1'], ['0', '5']⟩ a + 1 := by
  exact claim_C6 "host[01:05]" ⟨"host".data, ['0', '1'], ['0', '5']⟩
    ["host02"] 3 (by decide)
    (by
      intro s hs
      have hs2 : s = "host02" := by simpa using hs
      subst hs2
      exact ⟨['0', '2'], by decide, by decide, by decide, by decide, by decide⟩)

/-- C7: on pattern web[1:9] the membership test accepts web5 — the regex
group captures the single digit 5 whose value lies within 1..9 — and
rejects web05, whose captured width-1 digit is 0, outside the range. -/
theorem claim_C7 :
    check_pattern "web[1:9]" "web5" () = some true ∧
    matchIdGroup "web".data 1 "web5".data = some ['5'] ∧
    natOfDigits ['5'] = 5 ∧
    check_pattern "web[1:9]" "web05" () = some false := by
  exact ⟨by decide, by decide, by decide, by decide⟩

/-- C8: parsing round-trips the lower bound: on any well-formed pattern
string, re-rendering the parsed hostname followed by the parsed lower bound
zero-padded to the parsed width reproduces, character for character, the
prefix-plus-lower-bound portion of the original pattern string. -/
theorem claim_C8 (h d1 d2 rest : List Char)
    (hh : h.all isClassChar = true) (h1ne : d1 ≠ [])
    (h1d : d1.all Char.isDigit = true) (h2ne : d2 ≠ [])
    (h2d : d2.all Char.isDigit = true) :
    ∃ pd, parse_pattern (h ++ '[' :: (d1 ++ ':' :: (d2 ++ ']' :: rest))) =
        some pd ∧
      pd.hostname ++ padDigits (natOfDigits pd.range_start)
        pd.range_start.length = h ++ d1 := by
  refine ⟨⟨h, d1, d2⟩, parse_pattern_complete hh h1ne h1d h2ne h2d, ?_⟩
  show h ++ padDigits (natOfDigits d1) d1.length = h ++ d1
  rw [padDigits_val h1d h1ne]

/-- C8, witness: the round trip on host[007:099], whose lower-bound literal
007 carries leading zeros. -/
theorem claim_C8_witness :
    ∃ pd, parse_pattern ("host".data ++ '[' :: (['0', '0', '7'] ++ ':' ::
        (['0', '9', '9'] ++ ']' :: []))) = some pd ∧
      pd.hostname ++ padDigits (natOfDigits pd.range_start)
        pd.range_start.length = "host".data ++ ['0', '0', '7'] := by
  exact claim_C8 "host".data ['0', '0', '7'] ['0', '9', '9'] []
    (by decide) (by decide) (by decide) (by decide) (by decide)

/-- C9: the membership test never reads its taken argument; its result is
identical for any two values of any two types passed there. -/
theorem claim_C9 {α β : Type} (pat tag : String) (t1 : α) (t2 : β) :
    check_pattern pat tag t1 = check_pattern pat tag t2 := rfl

/-- C10: on a pattern that parses, if the taken list is non-empty and its
Python-maximum does not begin with the hostname followed by exactly width
digits, the allocator raises (the regex match is None and group(1) fails)
instead of returning a sequence, whatever the requested count. -/
theorem claim_C10 (pat : String) (pd : PatternDict) (t : String)
    (ts : List String) (n : Nat) (hp : parse_pattern pat.data = some pd)
    (hbad : ¬ StartsWithIdRun pd.hostname pd.range_start.length
      (pyMax t ts).data) :
    fresh_names pat (t :: ts) n = none := by
  have hm := matchIdGroup_none_iff.mpr hbad
  unfold fresh_names
  rw [hp]
  simp only [hm]

/-- C10, witness: pattern host[01:99] with the non-conforming name bogus
taken. -/
theorem claim_C10_witness : fresh_names "host[01:99]" ["bogus"] 3 = none := by
  apply claim_C10 "host[01:99]" ⟨"host".data, ['0', '1'], ['9', '9']⟩
    "bogus" [] 3 (by decide)
  rintro ⟨ds, rest, htag, hlen, -⟩
  have hw : (PatternDict.mk "host".data ['0', '1'] ['9', '9']).range_start.length
      = 2 := rfl
  rw [hw] at hlen
  have hmx : (pyMax "bogus" []).data = "bogus".data := rfl
  rw [hmx] at htag
  have hl := congrArg List.length htag
  rw [List.length_append, List.length_append] at hl
  have h5 : ("bogus".data : List Char).length = 5 := by decide
  have h4 : ("host".data : List Char).length = 4 := by decide
  rw [h5, h4, hlen] at hl
  omega

end Ec2EnumerateTag
